import Mathlib

/-!
# Verification of the maddi-recipe core (src/lib.rs)

A shallow embedding of the recipe parser, scaler, and renderer.

Modelling conventions:
* Rust `&str` / `String` values are modelled as `List Char` (`Str` below);
  string operations (`find`, `split_once`, `split_at`, `split("\n")`,
  `trim_start`, `starts_with`) are defined on lists from the source's
  semantics (first occurrence, byte-faithful splitting).
* Rust `f32` is modelled as `ℚ`.  Every constant of the program
  (`CUP = 192`, `THREE_QUARTER_CUP = 144`, `TWO_THIRDS_CUP = 2/3*192 = 128`,
  `THIRD_CUP = 64`, ...) is exactly representable in `f32` — including the
  two thirds constants, whose `f32` rounding yields exactly `128.0` and
  `64.0` — so on the values the claims are about, `f32` arithmetic and
  exact rational arithmetic agree.  `f32::div_euclid` / `f32::rem_euclid`
  with a positive divisor are floor division and its remainder.
* `f32` display (`{x}` formatting) prints an integral value without a
  decimal point and a fractional value as its (terminating) decimal
  expansion; `fmtQ` below reproduces this for the dyadic rationals that
  `f32` can hold.  Rust's float *parser* is modelled on its finite
  fragment: optional sign, digits, optional point, optional exponent (an
  exact `10^N` rational factor).  The spellings `inf`/`infinity`/`nan`
  (any case) are recognized but map to `none`, since they denote
  non-finite `f32` values with no rational counterpart, as does a
  zero-denominator fraction in `parse_f32` (whose `f32` division yields
  `±inf` or `NaN`); the one claim for which these dropped cases matter,
  C7, excludes them explicitly in its amended hypotheses.
* The one panic in the code (`expect` in `Ingredient::parse`) is modelled
  by `Option`: `none` is the fatal precondition failure.
-/

/-- Rust strings, byte/char faithful. -/
abbrev Str := List Char

/-- Coerce a Lean string literal to the `List Char` model. -/
def chars (s : String) : Str := s.toList

/-- Index of the first occurrence of `sub` in `l` (Rust `str::find`).
An empty pattern matches at index 0, as in Rust. -/
def findSub : Str → Str → Option Nat
  | [], sub => if sub = [] then some 0 else none
  | c :: t, sub =>
    if sub <+: c :: t then some 0 else (findSub t sub).map (· + 1)

/-- Rust `str::split_once`: split around the first occurrence of `d`. -/
def splitOnce (l d : Str) : Option (Str × Str) :=
  match findSub l d with
  | some i => some (l.take i, l.drop (i + d.length))
  | none => none

/-- `SplitTwice::split_twice` from src/lib.rs: two successive `split_once`. -/
def splitTwice (l d : Str) : Option (Str × Str × Str) :=
  (splitOnce l d).bind fun ab =>
    (splitOnce ab.2 d).map fun bc => (ab.1, bc.1, bc.2)

/-! ## The unit constants (mod `quarter_teaspoons` in src/lib.rs) -/

namespace quarter_teaspoons

def CUP : ℚ := 16 * 3 * 4
def THREE_QUARTER_CUP : ℚ := 3 / 4 * CUP
def TWO_THIRDS_CUP : ℚ := 2 / 3 * CUP
def HALF_CUP : ℚ := 0.5 * CUP
def THIRD_CUP : ℚ := 1 / 3 * CUP
def QUARTER_CUP : ℚ := 1 / 4 * CUP
def TABLESPOON : ℚ := 3 * 4
def HALF_TABLESPOON : ℚ := 0.5 * TABLESPOON
def TEASPOON : ℚ := 4
def HALF_TEASPOON : ℚ := 2
def QUARTER_TEASPOON : ℚ := 1

end quarter_teaspoons

/-- `f32::div_euclid` for a positive divisor: floor division. -/
def divE (a b : ℚ) : ℚ := ((⌊a / b⌋ : ℤ) : ℚ)

/-- `f32::rem_euclid` for a positive divisor: `a - b * ⌊a / b⌋`. -/
def remE (a b : ℚ) : ℚ := a - divE a b * b

theorem remE_nonneg (a b : ℚ) (hb : 0 < b) : 0 ≤ remE a b := by
  have h := Int.floor_le (a / b)
  have : divE a b * b ≤ a / b * b := by
    exact mul_le_mul_of_nonneg_right h (le_of_lt hb)
  have hab : a / b * b = a := div_mul_cancel₀ a (ne_of_gt hb)
  unfold remE
  linarith [hab ▸ this]

theorem remE_lt (a b : ℚ) (hb : 0 < b) : remE a b < b := by
  have h := Int.lt_floor_add_one (a / b)
  have : a / b * b < (divE a b + 1) * b := by
    exact mul_lt_mul_of_pos_right h hb
  have hab : a / b * b = a := div_mul_cancel₀ a (ne_of_gt hb)
  unfold remE
  rw [hab] at this
  linarith

/-! ## Number formatting (Rust `{}` display of an `f32`) -/

/-- Digit characters for decimal printing. -/
def digitChar : Nat → Char
  | 0 => '0' | 1 => '1' | 2 => '2' | 3 => '3' | 4 => '4'
  | 5 => '5' | 6 => '6' | 7 => '7' | 8 => '8' | 9 => '9'
  | _ => '*'

/-- Decimal digits of a natural number, most significant first (fuelled). -/
def natDigits : Nat → Nat → Str → Str
  | 0, _, acc => acc
  | fuel + 1, n, acc =>
    if n < 10 then digitChar n :: acc
    else natDigits fuel (n / 10) (digitChar (n % 10) :: acc)

/-- Print a natural number in decimal. -/
def natStr (n : Nat) : Str := natDigits (n + 1) n []

/-- Digits after the decimal point of a rational in `[0, 1)` (fuelled;
terminates within the fuel for every dyadic rational an `f32` can hold). -/
def fracDigits : Nat → ℚ → Str
  | 0, _ => []
  | fuel + 1, q =>
    if q = 0 then []
    else digitChar (⌊q * 10⌋.toNat) :: fracDigits fuel (q * 10 - ((⌊q * 10⌋ : ℤ) : ℚ))

/-- Rust `{}` display of a nonnegative `f32` value: no decimal point for an
integral value, otherwise the terminating decimal expansion. -/
def fmtQAbs (q : ℚ) : Str :=
  natStr ⌊q⌋.toNat ++ (if q.den = 1 then [] else '.' :: fracDigits 64 (q - ((⌊q⌋ : ℤ) : ℚ)))

/-- Rust `{}` display of an `f32` value. -/
def fmtQ (q : ℚ) : Str :=
  if q < 0 then '-' :: fmtQAbs (-q) else fmtQAbs q

/-! ## Numeric parsing (`parse_f32` and Rust `str::parse::<f32>`) -/

/-- Digit string to natural number. -/
def digitsToNat (s : Str) : Nat :=
  s.foldl (fun n c => 10 * n + (c.toNat - 48)) 0

/-- Scale a mantissa by a parsed exponent-digit string: `10^N` up or down.
Rust's float grammar allows these forms and their values are exact
rationals, so the model carries them exactly. -/
def expApply (mant : ℚ) (pos : Bool) (ds : Str) : Option ℚ :=
  if !ds.isEmpty && ds.all Char.isDigit then
    some (if pos then mant * (10 : ℚ) ^ digitsToNat ds
      else mant / (10 : ℚ) ^ digitsToNat ds)
  else none

/-- The text after an `e`/`E` exponent marker: optional sign, then digits. -/
def parseExpDigits (mant : ℚ) (t : Str) : Option ℚ :=
  match t with
  | [] => none
  | c :: t2 =>
    if c = '+' then expApply mant true t2
    else if c = '-' then expApply mant false t2
    else expApply mant true (c :: t2)

/-- Rust `f32` parsing, unsigned fragment: `digits`, `digits.`,
`digits.digits`, `.digits`, each with an optional `e`/`E` exponent whose
value is applied exactly (`10^N` is a rational). -/
def parseUFloat (s : Str) : Option ℚ :=
  let intPart := s.takeWhile Char.isDigit
  let rest := s.dropWhile Char.isDigit
  match rest with
  | [] => if intPart.isEmpty then none else some (digitsToNat intPart : ℚ)
  | c :: rest2 =>
    if c = '.' then
      let frac := rest2.takeWhile Char.isDigit
      let rest3 := rest2.dropWhile Char.isDigit
      if intPart.isEmpty && frac.isEmpty then none
      else
        let mant := (digitsToNat intPart : ℚ) + (digitsToNat frac : ℚ) / (10 : ℚ) ^ frac.length
        match rest3 with
        | [] => some mant
        | e :: t => if e = 'e' ∨ e = 'E' then parseExpDigits mant t else none
    else if (c = 'e' ∨ c = 'E') ∧ ¬intPart.isEmpty then
      parseExpDigits (digitsToNat intPart : ℚ) rest2
    else none

/-- The case-insensitive special spellings Rust's float parser also
accepts.  They denote the non-finite `f32` values `inf` and `NaN`, which
have no rational counterpart. -/
def specialFloat (s : Str) : Bool :=
  let l := s.map Char.toLower
  (l == chars "inf") || (l == chars "infinity") || (l == chars "nan")

/-- Rust `f32` parsing: optional sign, then either a special spelling
(`inf`/`infinity`/`nan`, any case) or the decimal fragment.  The special
spellings parse in the source to non-finite `f32` values that no rational
models, so here they are `none`: theorems about successful parses assert
nothing about them, and the one claim this matters for (C7) excludes them
explicitly in its amended hypotheses. -/
def parseFloat (s : Str) : Option ℚ :=
  match s with
  | [] => none
  | c :: t =>
    if c = '-' then
      if specialFloat t then none else (parseUFloat t).map (fun q => -q)
    else if c = '+' then
      if specialFloat t then none else parseUFloat t
    else if specialFloat (c :: t) then none
    else parseUFloat (c :: t)

/-- `parse_f32` from src/lib.rs: an `a/b` fraction (split on the first `/`)
or a plain float.  A zero denominator makes the source's `f32` division
produce `+inf`, `-inf`, or (for `0/0`) `NaN` — all non-finite, with no
rational counterpart — so the model returns `none` on that branch; C7's
amended hypotheses exclude it, and no other claim reaches it. -/
def parseF32 (num : Str) : Option ℚ :=
  match splitOnce num (chars "/") with
  | some ab =>
    (parseFloat ab.1).bind fun x =>
      (parseFloat ab.2).bind fun y =>
        if y = 0 then none else some (x / y)
  | none => parseFloat num

/-! ## Data model -/

/-- `struct Volume { quarter_teaspoons: f32 }`. -/
structure Volume where
  quarter_teaspoons : ℚ
deriving DecidableEq

/-- `enum Quantity { None, Simple(f32), Volume(Volume) }`. -/
inductive Quantity where
  | none : Quantity
  | simple : ℚ → Quantity
  | volume : Volume → Quantity
deriving DecidableEq

/-- `struct Ingredient { indent, quantity, name }`. -/
structure Ingredient where
  indent : Str
  quantity : Quantity
  name : Str
deriving DecidableEq

/-- `struct Recipe { preface, ingredients, instructions }`. -/
structure Recipe where
  preface : Str
  ingredients : List Ingredient
  instructions : Str
deriving DecidableEq

/-- `Volume::quarter_teaspoons` accessor is the field itself. -/
def Volume.scale (v : Volume) (factor : ℚ) : Volume :=
  ⟨v.quarter_teaspoons * factor⟩

/-- `Volume::parse(amount, unit)` from src/lib.rs: parse the amount, match
the lowercased unit against the alias table, multiply. -/
def Volume.parse (amount unit : Str) : Option Volume :=
  (parseF32 amount).bind fun a =>
    let u := unit.map Char.toLower
    if u = chars "cups" ∨ u = chars "cup" then
      some ⟨a * (16 * 3 * 4 : ℚ)⟩
    else if u = chars "tablespoon" ∨ u = chars "tablespoons" ∨ u = chars "tb" ∨
        u = chars "tbs" ∨ u = chars "tbsp" ∨ u = chars "tbsps" then
      some ⟨a * (3 * 4 : ℚ)⟩
    else if u = chars "teaspoon" ∨ u = chars "teaspoons" ∨ u = chars "tsp" ∨
        u = chars "tsps" then
      some ⟨a * (4 : ℚ)⟩
    else none

/-! ## Volume rendering (`impl Display for Volume`)

The display routine accumulates into one string `out`.  Every fraction
check has the same shape: if the threshold still fits, push `"+ "` when
`out` is nonempty (marking the plural flag), push the token and a space,
and subtract.  `jn out` is that conditional `"+ "` joiner. -/

open quarter_teaspoons

/-- The `"+ "` joiner pushed before a token when `out` is nonempty. -/
def jn (out : Str) : Str := if out.isEmpty then [] else chars "+ "

/-- One cup-fraction threshold check of the display routine, iterated over
the five `(threshold, token)` pairs in source order. -/
def fracScan : List (ℚ × Str) → Str → Bool → ℚ → Str × Bool × ℚ
  | [], out, plural, r => (out, plural, r)
  | (c, tok) :: rest, out, plural, r =>
    if c ≤ r then
      fracScan rest (out ++ jn out ++ tok ++ chars " ")
        (if out.isEmpty then plural else true) (r - c)
    else fracScan rest out plural r

/-- The five cup-fraction thresholds, in the source's descending order. -/
def cupFracs : List (ℚ × Str) :=
  [(THREE_QUARTER_CUP, chars "3/4"), (TWO_THIRDS_CUP, chars "2/3"),
   (HALF_CUP, chars "1/2"), (THIRD_CUP, chars "1/3"),
   (QUARTER_CUP, chars "1/4")]

/-- Whole cups followed by the five fraction checks: the state
`(out, plural, remainder)` just before the cup unit label is chosen. -/
def cupScan (q : ℚ) : Str × Bool × ℚ :=
  fracScan cupFracs
    (if 0 < divE q CUP then fmtQ (divE q CUP) ++ chars " " else [])
    false (remE q CUP)

/-- The cup unit label: `"cups"` when more than one whole cup or the plural
flag was set, `"cup"` when the group is nonempty, nothing otherwise. -/
def cupLabel (q : ℚ) : Str :=
  if 1 < divE q CUP ∨ (cupScan q).2.1 = true then chars "cups"
  else if (cupScan q).1.isEmpty then [] else chars "cup"

/-- The whole cup group of the display routine: its text and the
remainder handed to the tablespoon group. -/
def cupGroup (q : ℚ) : Str × ℚ :=
  ((cupScan q).1 ++ cupLabel q, (cupScan q).2.2)

/-- The tablespoon group: whole tablespoons, the guarded half-tablespoon
check (only when the leftover is in `[HALF_TABLESPOON, 2 * TEASPOON)`),
then the `tbsps`/`tbsp` label. -/
def tbspGroup (out0 : Str) (q : ℚ) : Str × ℚ :=
  let tablespoons := divE q TABLESPOON
  let r := remE q TABLESPOON
  let out1 :=
    if 0 < tablespoons then out0 ++ jn out0 ++ fmtQ tablespoons ++ chars " " else out0
  let out2 :=
    if HALF_TABLESPOON ≤ r ∧ r < 2 * TEASPOON then out1 ++ jn out1 ++ chars "1/2 "
    else out1
  let r2 := if HALF_TABLESPOON ≤ r ∧ r < 2 * TEASPOON then r - HALF_TABLESPOON else r
  let out3 :=
    if 1 < tablespoons ∨ ((HALF_TABLESPOON ≤ r ∧ r < 2 * TEASPOON) ∧ 0 < tablespoons) then
      out2 ++ chars "tbsps"
    else if 0 < tablespoons ∨ (HALF_TABLESPOON ≤ r ∧ r < 2 * TEASPOON) then
      out2 ++ chars "tbsp"
    else out2
  (out3, r2)

/-- The fractional-teaspoon token of the final leftover: `1/16`, `1/8`, or
the raw decimal. -/
def tspFracToken (t : ℚ) : Str :=
  if t = 1 / 16 then chars "1/16 "
  else if t = 1 / 8 then chars "1/8 "
  else fmtQ t ++ chars " "

/-- The teaspoon group: whole teaspoons, half- and quarter-teaspoon checks,
the leftover fraction, then the `tsps`/`tsp` label.  The `plural` flag is
the value of `has_teaspoons` at the moment of the last firing check. -/
def tspGroup (out0 : Str) (q : ℚ) : Str :=
  let teaspoons := divE q TEASPOON
  let r := remE q TEASPOON
  let out1 :=
    if 0 < teaspoons then out0 ++ jn out0 ++ fmtQ teaspoons ++ chars " " else out0
  let out2 := if HALF_TEASPOON ≤ r then out1 ++ jn out1 ++ chars "1/2 " else out1
  let r1 := if HALF_TEASPOON ≤ r then r - HALF_TEASPOON else r
  let out3 := if QUARTER_TEASPOON ≤ r1 then out2 ++ jn out2 ++ chars "1/4 " else out2
  let r2 := if QUARTER_TEASPOON ≤ r1 then r1 - QUARTER_TEASPOON else r1
  let out4 := if 0 < r2 then out3 ++ jn out3 ++ tspFracToken (r2 / 4) else out3
  let plural :=
    (0 < r2 ∧ (0 < teaspoons ∨ HALF_TEASPOON ≤ r ∨ QUARTER_TEASPOON ≤ r1)) ∨
    (¬0 < r2 ∧ QUARTER_TEASPOON ≤ r1 ∧ (0 < teaspoons ∨ HALF_TEASPOON ≤ r)) ∨
    (¬0 < r2 ∧ ¬QUARTER_TEASPOON ≤ r1 ∧ HALF_TEASPOON ≤ r ∧ 0 < teaspoons)
  let has := 0 < teaspoons ∨ HALF_TEASPOON ≤ r ∨ QUARTER_TEASPOON ≤ r1 ∨ 0 < r2
  if 1 < teaspoons ∨ plural then out4 ++ chars "tsps"
  else if has then out4 ++ chars "tsp"
  else out4

/-- `impl Display for Volume`: cups, then tablespoons on the cup remainder,
then teaspoons on the tablespoon remainder. -/
def Volume.render (v : Volume) : Str :=
  let c := cupGroup v.quarter_teaspoons
  let t := tbspGroup c.1 c.2
  tspGroup t.1 t.2


/-! ## Quantity and Ingredient -/

/-- `Quantity` scaling inside `Ingredient::scale`. -/
def Quantity.scale (q : Quantity) (factor : ℚ) : Quantity :=
  match q with
  | .none => .none
  | .simple s => .simple (s * factor)
  | .volume v => .volume (v.scale factor)

/-- The `'parse_quantity` block of `Ingredient::parse`: try a two-token
volume, then a one-token simple number, then no quantity. -/
def parseQuantity (tail : Str) : Quantity × Str :=
  match (splitTwice tail (chars " ")).bind
      (fun aun => (Volume.parse aun.1 aun.2.1).map fun v => (v, aun.2.2)) with
  | some vn => (Quantity.volume vn.1, vn.2)
  | none =>
    match splitOnce tail (chars " ") with
    | some an =>
      match parseF32 an.1 with
      | some s => (Quantity.simple s, an.2)
      | none => (Quantity.none, tail)
    | none => (Quantity.none, tail)

/-- `Ingredient::parse`: split at `"- "` (the `expect` panic is `none`),
then parse the quantity from the tail. -/
def Ingredient.parse (src : Str) : Option Ingredient :=
  (splitOnce src (chars "- ")).map fun it =>
    let qn := parseQuantity it.2
    ⟨it.1, qn.1, qn.2⟩

/-- `Ingredient::scale`. -/
def Ingredient.scale (i : Ingredient) (factor : ℚ) : Ingredient :=
  ⟨i.indent, i.quantity.scale factor, i.name⟩

/-- `impl Display for Ingredient`. -/
def Ingredient.render (i : Ingredient) : Str :=
  i.indent ++ chars "- " ++
    (match i.quantity with
     | .simple q => fmtQ q ++ chars " "
     | .volume v => v.render ++ chars " "
     | .none => []) ++
  i.name

/-! ## The ingredients segmenter (`impl Iterator for Ingredients`) -/

/-- Rust `str::split("\n")`: the lines of a string, keeping a final empty
piece; a string with `n` newlines yields `n + 1` pieces. -/
def splitLines : Str → List Str
  | [] => [[]]
  | c :: t =>
    if c = '\n' then [] :: splitLines t
    else
      match splitLines t with
      | [] => [[c]]
      | l :: ls => (c :: l) :: ls

/-- Is this line, after `trim_start`, starting with `"-"`? -/
def dashLine (l : Str) : Bool :=
  match l.dropWhile Char.isWhitespace with
  | c :: _ => c == '-'
  | [] => false

/-- Offset of the first line (piece of `split("\n")`) satisfying
`dashLine`, as a char offset from the start of the text. -/
def findDashOff (ls : List Str) : Option Nat :=
  match ls with
  | [] => none
  | l :: rest =>
    if dashLine l then some 0
    else (findDashOff rest).map (· + l.length + 1)

/-- One step of the `Ingredients` iterator: skip past the first `"- "`,
then cut just before the next dash-starting line of the tail; if there is
none, the whole remaining text is the last item. -/
def ingredientsNext (src : Str) : Option (Str × Str) :=
  match splitOnce src (chars "- ") with
  | none => none
  | some at_ =>
    match findDashOff (splitLines at_.2) with
    | some off =>
      some (src.take (at_.1.length + 2 + off), src.drop (at_.1.length + 2 + off))
    | none => some (src, [])

/-- All items the iterator produces (fuelled; each step strictly shrinks
the remaining text, so `length + 1` fuel always suffices). -/
def ingredientsItemsAux : Nat → Str → List Str
  | 0, _ => []
  | fuel + 1, src =>
    match ingredientsNext src with
    | none => []
    | some ir => ir.1 :: ingredientsItemsAux fuel ir.2

/-- The sequence of substrings the `Ingredients` iterator yields. -/
def ingredientsItems (src : Str) : List Str :=
  ingredientsItemsAux (src.length + 1) src

/-! ## Recipe parsing and rendering -/

/-- `Option`-valued `map` + `collect`: all ingredient parses must succeed. -/
def mapOption (f : Str → Option Ingredient) : List Str → Option (List Ingredient)
  | [] => some []
  | a :: l => (f a).bind fun b => (mapOption f l).map fun bs => b :: bs

/-- The literal header marker of `Recipe::parse`. -/
def INGREDIENTS : Str := chars "\n## Ingredients\n\n"

/-- The section split of `Recipe::parse`: `(preface, ingredients_block,
instructions)`.  Without the header the whole text is the preface; without
a following `"\n##"` the instructions are empty. -/
def splitSections (src : Str) : Str × Str × Str :=
  match findSub src INGREDIENTS with
  | none => (src, [], [])
  | some i =>
    let preface := src.take (i + INGREDIENTS.length)
    let rest := src.drop (i + INGREDIENTS.length)
    match findSub rest (chars "\n##") with
    | some e => (preface, rest.take e, rest.drop e)
    | none => (preface, rest, [])

/-- `Recipe::parse`.  `none` models the only fatal failure, an ingredient
item without a `"- "` marker (which never happens on segmenter output). -/
def Recipe.parse (src : Str) : Option Recipe :=
  let s := splitSections src
  (mapOption Ingredient.parse (ingredientsItems s.2.1)).map fun ings =>
    ⟨s.1, ings, s.2.2⟩

/-- `Recipe::scale`. -/
def Recipe.scale (r : Recipe) (factor : ℚ) : Recipe :=
  ⟨r.preface, r.ingredients.map (·.scale factor), r.instructions⟩

/-- Concatenation of a list of strings (successive `write!` calls). -/
def cat (ls : List Str) : Str := ls.foldr (· ++ ·) []

/-- `impl Display for Recipe`: preface, each ingredient, instructions. -/
def Recipe.render (r : Recipe) : Str :=
  r.preface ++ cat (r.ingredients.map Ingredient.render) ++ r.instructions


/-! ## Facts about `findSub` and `splitOnce` -/

theorem findSub_spec (sub : Str) :
    ∀ (l : Str) (i : Nat), findSub l sub = some i →
      l = l.take i ++ sub ++ l.drop (i + sub.length) := by
  intro l
  induction l with
  | nil =>
    intro i h
    rw [findSub] at h
    split at h
    · rename_i hp
      cases h
      simp [hp]
    · simp at h
  | cons c t ih =>
    intro i h
    rw [findSub] at h
    split at h
    · rename_i hp
      cases h
      obtain ⟨r, hr⟩ := hp
      rw [← hr]
      simp [List.drop_left]
    · simp only [Option.map_eq_some'] at h
      obtain ⟨j, hj, rfl⟩ := h
      have := ih j hj
      calc c :: t = c :: (t.take j ++ sub ++ t.drop (j + sub.length)) := by rw [← this]
        _ = (c :: t).take (j + 1) ++ sub ++ (c :: t).drop (j + 1 + sub.length) := by
            simp [List.take_succ_cons, Nat.add_right_comm]

theorem splitOnce_spec (l d a b : Str) (h : splitOnce l d = some (a, b)) :
    l = a ++ d ++ b := by
  rw [splitOnce] at h
  split at h
  · rename_i i hi
    cases h
    exact findSub_spec d l i hi
  · cases h

theorem findSub_isSome_iff (sub : Str) :
    ∀ l : Str, (findSub l sub).isSome ↔ sub <:+: l := by
  intro l
  induction l with
  | nil =>
    rw [findSub, List.infix_nil]
    split
    · rename_i hp
      simp [hp]
    · rename_i hp
      simp [hp]
  | cons c t ih =>
    rw [findSub, List.infix_cons_iff]
    split
    · rename_i hp
      simp [hp]
    · rename_i hp
      have hm : (Option.map (· + 1) (findSub t sub)).isSome = (findSub t sub).isSome := by
        cases findSub t sub <;> rfl
      rw [hm, ih]
      simp [hp]

theorem splitOnce_isSome_iff (l d : Str) :
    (splitOnce l d).isSome ↔ d <:+: l := by
  rw [splitOnce]
  rw [← findSub_isSome_iff]
  cases h : findSub l d <;> simp [h]

theorem findSub_eq_none (l sub : Str) (h : ¬ sub <:+: l) : findSub l sub = none :=
  Option.not_isSome_iff_eq_none.mp (fun hs => h ((findSub_isSome_iff sub l).mp hs))

/-! ## Lenient fallback when the header is missing (C8) -/

/-- C8: an input without the literal `"\n## Ingredients\n\n"` substring
parses, without error, into a recipe whose preface is the whole input,
with no ingredients and empty instructions. -/
theorem recipe_parse_no_header (src : Str) (h : ¬ INGREDIENTS <:+: src) :
    Recipe.parse src = some ⟨src, [], []⟩ := by
  have hf : findSub src INGREDIENTS = none := findSub_eq_none _ _ h
  unfold Recipe.parse splitSections
  rw [hf]
  rfl

/-- C8 witness: the fallback on the concrete header-free input `"hello"`. -/
theorem recipe_parse_no_header_witness :
    ¬ INGREDIENTS <:+: chars "hello" ∧
      Recipe.parse (chars "hello") = some ⟨chars "hello", [], []⟩ :=
  ⟨by decide, recipe_parse_no_header (chars "hello") (by decide)⟩

/-! ## Every segmenter item carries the `"- "` marker (C9) -/

theorem ingredientsNext_marker (src item rest : Str)
    (h : ingredientsNext src = some (item, rest)) : chars "- " <:+: item := by
  rw [ingredientsNext] at h
  split at h
  · cases h
  · rename_i at_ hsp
    have hsrc := splitOnce_spec _ _ _ _ hsp
    split at h
    · rename_i off hoff
      cases h
      rw [hsrc]
      have hlen : at_.1.length + 2 + off = (at_.1 ++ chars "- ").length + off := by
        simp [chars]
      rw [hlen, List.append_assoc, ← List.append_assoc at_.1, List.take_append off]
      exact ⟨at_.1, at_.2.take off, by simp⟩
    · cases h
      rw [hsrc]
      exact ⟨at_.1, at_.2, by simp⟩

theorem itemsAux_marker :
    ∀ (fuel : Nat) (src item : Str), item ∈ ingredientsItemsAux fuel src →
      chars "- " <:+: item := by
  intro fuel
  induction fuel with
  | zero => intro src item h; simp [ingredientsItemsAux] at h
  | succ n ih =>
    intro src item h
    rw [ingredientsItemsAux] at h
    split at h
    · simp at h
    · rename_i ir hir
      rcases List.mem_cons.mp h with h1 | h2
      · exact h1 ▸ ingredientsNext_marker src ir.1 ir.2 hir
      · exact ih ir.2 item h2

theorem ingredient_parse_isSome (item : Str) (h : chars "- " <:+: item) :
    (Ingredient.parse item).isSome := by
  rw [Ingredient.parse]
  have := (splitOnce_isSome_iff item (chars "- ")).mpr h
  cases hs : splitOnce item (chars "- ") with
  | none => rw [hs] at this; simp at this
  | some p => simp [hs]

theorem mapOption_isSome (f : Str → Option Ingredient) :
    ∀ l : List Str, (∀ a ∈ l, (f a).isSome) → (mapOption f l).isSome := by
  intro l
  induction l with
  | nil => intro _; simp [mapOption]
  | cons a t ih =>
    intro h
    rw [mapOption]
    have ha := h a (List.mem_cons_self a t)
    cases hfa : f a with
    | none => rw [hfa] at ha; simp at ha
    | some b =>
      have ht := ih fun x hx => h x (List.mem_cons_of_mem a hx)
      cases hmt : mapOption f t with
      | none => rw [hmt] at ht; simp at ht
      | some bs => simp [hfa, hmt]

/-- C9: every substring the ingredients segmenter yields contains the
`"- "` marker, hence `Ingredient.parse` (whose only failure is the missing
marker) succeeds on all segmenter output, and `Recipe.parse` never fails. -/
theorem segmenter_items_safe :
    (∀ s item : Str, item ∈ ingredientsItems s →
        chars "- " <:+: item ∧ (Ingredient.parse item).isSome) ∧
      ∀ src : Str, (Recipe.parse src).isSome := by
  constructor
  · intro s item h
    have hm := itemsAux_marker (s.length + 1) s item h
    exact ⟨hm, ingredient_parse_isSome item hm⟩
  · intro src
    rw [Recipe.parse]
    have hs : (mapOption Ingredient.parse (ingredientsItems (splitSections src).2.1)).isSome := by
      apply mapOption_isSome
      intro a ha
      exact ingredient_parse_isSome a
        (itemsAux_marker ((splitSections src).2.1.length + 1) (splitSections src).2.1 a ha)
    cases hmo : mapOption Ingredient.parse (ingredientsItems (splitSections src).2.1) with
    | none => rw [hmo] at hs; simp at hs
    | some ings => simp [hmo]

/-- C9 witness: the segmenter output `"- a\n"` of the block `"- a\n- b"`
carries the marker, parses, and the whole document parses. -/
theorem segmenter_items_safe_witness :
    chars "- a\n" ∈ ingredientsItems (chars "- a\n- b") ∧
      (chars "- " <:+: chars "- a\n" ∧ (Ingredient.parse (chars "- a\n")).isSome) ∧
      (Recipe.parse (chars "x\n## Ingredients\n\n- a\n- b")).isSome :=
  ⟨by with_unfolding_all decide,
    segmenter_items_safe.1 (chars "- a\n- b") (chars "- a\n") (by with_unfolding_all decide),
    segmenter_items_safe.2 (chars "x\n## Ingredients\n\n- a\n- b")⟩

/-! ## The round-trip law (C1) -/

theorem splitSections_append (src : Str) :
    (splitSections src).1 ++ (splitSections src).2.1 ++ (splitSections src).2.2 = src := by
  unfold splitSections
  cases h : findSub src INGREDIENTS with
  | none => simp
  | some i =>
    simp only [h]
    cases h2 : findSub (List.drop (i + INGREDIENTS.length) src) (chars "\n##") with
    | none => simp [List.take_append_drop]
    | some e =>
      simp only [h2]
      rw [List.append_assoc, List.take_append_drop, List.take_append_drop]

theorem mapOption_roundtrip (f : Str → Option Ingredient) (g : Ingredient → Str) :
    ∀ l : List Str, (∀ a ∈ l, (f a).map g = some a) →
      ∃ bs, mapOption f l = some bs ∧ bs.map g = l := by
  intro l
  induction l with
  | nil => intro _; exact ⟨[], rfl, rfl⟩
  | cons a t ih =>
    intro h
    have ha := h a (List.mem_cons_self a t)
    rw [Option.map_eq_some'] at ha
    obtain ⟨b, hb, hgb⟩ := ha
    obtain ⟨bs, hbs, hmap⟩ := ih fun x hx => h x (List.mem_cons_of_mem a hx)
    refine ⟨b :: bs, ?_, ?_⟩
    · rw [mapOption, hb]
      simp [hbs]
    · simp [hmap, hgb]

/-- C1 (amended): parsing then rendering reproduces the input provided the
segmenter's items exactly cover the ingredients block and every item is
itself reproduced by `Ingredient.parse` then `Ingredient.render` (the
latter condition is what the counterexample `"- 2 tbsp oil"` violates:
quantities must already be in canonical rendered form). -/
theorem recipe_roundtrip (src : Str)
    (hcov : cat (ingredientsItems (splitSections src).2.1) = (splitSections src).2.1)
    (hitem : ∀ item ∈ ingredientsItems (splitSections src).2.1,
      (Ingredient.parse item).map Ingredient.render = some item) :
    ∃ r, Recipe.parse src = some r ∧ Recipe.render r = src := by
  obtain ⟨bs, hbs, hmap⟩ :=
    mapOption_roundtrip Ingredient.parse Ingredient.render _ hitem
  refine ⟨⟨(splitSections src).1, bs, (splitSections src).2.2⟩, ?_, ?_⟩
  · unfold Recipe.parse
    show (mapOption Ingredient.parse (ingredientsItems (splitSections src).2.1)).map
        (fun ings => (⟨(splitSections src).1, ings, (splitSections src).2.2⟩ : Recipe)) =
      some ⟨(splitSections src).1, bs, (splitSections src).2.2⟩
    rw [hbs]
    rfl
  · rw [Recipe.render]
    show (splitSections src).1 ++ cat (bs.map Ingredient.render) ++ (splitSections src).2.2 = src
    rw [hmap, hcov]
    exact splitSections_append src

/-- C1 witness: a concrete well-formed document (canonical quantities)
that satisfies both hypotheses and hence round-trips. -/
theorem recipe_roundtrip_witness :
    (cat (ingredientsItems (splitSections (chars "T\n## Ingredients\n\n- 1 cup flour\n- salt\n\n## Steps\nmix")).2.1) =
        (splitSections (chars "T\n## Ingredients\n\n- 1 cup flour\n- salt\n\n## Steps\nmix")).2.1) ∧
      ∃ r, Recipe.parse (chars "T\n## Ingredients\n\n- 1 cup flour\n- salt\n\n## Steps\nmix") = some r ∧
        Recipe.render r = chars "T\n## Ingredients\n\n- 1 cup flour\n- salt\n\n## Steps\nmix" :=
  ⟨by with_unfolding_all decide,
    recipe_roundtrip (chars "T\n## Ingredients\n\n- 1 cup flour\n- salt\n\n## Steps\nmix")
      (by with_unfolding_all decide) (by with_unfolding_all decide)⟩

/-- C1 counterexample: the claim as stated fails.  The input below has the
header and item markers exactly as specified, yet parsing then rendering
normalizes `"2 tbsp"` to `"2 tbsps"`, so the output differs from the
input. -/
theorem recipe_roundtrip_cex :
    INGREDIENTS <+: chars "\n## Ingredients\n\n- 2 tbsp oil" ∧
      (Recipe.parse (chars "\n## Ingredients\n\n- 2 tbsp oil")).map Recipe.render =
        some (chars "\n## Ingredients\n\n- 2 tbsps oil") ∧
      (Recipe.parse (chars "\n## Ingredients\n\n- 2 tbsp oil")).map Recipe.render ≠
        some (chars "\n## Ingredients\n\n- 2 tbsp oil") := by
  refine ⟨by decide, ?_, ?_⟩ <;> with_unfolding_all decide

/-! ## Two-token tails never parse as volumes (C10) -/

theorem findSub_single_at (x : Char) (b : Str) :
    ∀ a : Str, x ∉ a → findSub (a ++ x :: b) [x] = some a.length := by
  intro a
  induction a with
  | nil =>
    intro _
    rw [List.nil_append, findSub]
    rw [if_pos (List.cons_prefix_cons.mpr ⟨rfl, List.nil_prefix⟩)]
    rfl
  | cons c t ih =>
    intro h
    have hc : ¬ [x] <+: c :: (t ++ x :: b) := by
      intro hp
      rcases List.cons_prefix_cons.mp hp with ⟨hx, _⟩
      exact h (hx ▸ List.mem_cons_self c t)
    rw [List.cons_append, findSub, if_neg hc,
      ih fun hm => h (List.mem_cons_of_mem c hm)]
    rfl

theorem findSub_single_none (x : Char) :
    ∀ b : Str, x ∉ b → findSub b [x] = none := by
  intro b
  induction b with
  | nil => intro _; rw [findSub]; simp
  | cons c t ih =>
    intro h
    have hc : ¬ [x] <+: c :: t := by
      intro hp
      rcases List.cons_prefix_cons.mp hp with ⟨hx, _⟩
      exact h (hx ▸ List.mem_cons_self c t)
    rw [findSub, if_neg hc, ih fun hm => h (List.mem_cons_of_mem c hm)]
    rfl

/-- C10: a tail with exactly one space — two space-free tokens — can never
produce a `Volume` quantity (volume detection needs two spaces), and when
the first token parses as a number it yields `Simple` with the second
token, even a recognized unit word, as the name. -/
theorem two_token_tail_not_volume (a b : Str) (ha : ' ' ∉ a) (hb : ' ' ∉ b) :
    (∀ v, (parseQuantity (a ++ ' ' :: b)).1 ≠ Quantity.volume v) ∧
      ∀ x, parseF32 a = some x → parseQuantity (a ++ ' ' :: b) = (Quantity.simple x, b) := by
  have hsp : chars " " = [' '] := rfl
  have hso : splitOnce (a ++ ' ' :: b) (chars " ") = some (a, b) := by
    rw [splitOnce, hsp, findSub_single_at ' ' b a ha]
    show some ((a ++ ' ' :: b).take a.length, (a ++ ' ' :: b).drop (a.length + 1)) = some (a, b)
    rw [List.take_left, List.drop_append 1]
    rfl
  have hst : splitTwice (a ++ ' ' :: b) (chars " ") = none := by
    rw [splitTwice, hso]
    rw [Option.some_bind]
    rw [splitOnce, hsp, findSub_single_none ' ' b hb]
    rfl
  constructor
  · intro v
    rw [parseQuantity, hst]
    cases hp : parseF32 a with
    | none => simp [hso, hp]
    | some x => simp [hso, hp]
  · intro x hx
    rw [parseQuantity, hst]
    simp [hso, hx]

/-- C10 witness: the tail `"1 cup"` — a number and a recognized unit, but
only one space — yields `Simple 1` with name `"cup"`, not a volume. -/
theorem two_token_tail_not_volume_witness :
    (' ' ∉ chars "1") ∧ (' ' ∉ chars "cup") ∧
      parseQuantity (chars "1" ++ ' ' :: chars "cup") = (Quantity.simple 1, chars "cup") :=
  ⟨by decide, by decide,
    (two_token_tail_not_volume (chars "1") (chars "cup") (by decide) (by decide)).2 1
      (by with_unfolding_all decide)⟩

/-! ## Ordered quantity fallback (C5) -/

/-- C5: the quantity fallback order Volume → Simple → None on the spec's
two example tails: `"2 eggs"` fails the volume path (`"eggs"` is no unit,
and the two-space split already fails) and parses as `Simple 2` with name
`"eggs"`; `"salt to taste"` fails both and keeps the whole tail as name. -/
theorem parse_fallback_order :
    parseQuantity (chars "2 eggs") = (Quantity.simple 2, chars "eggs") ∧
      splitTwice (chars "2 eggs") (chars " ") = none ∧
      Volume.parse (chars "salt") (chars "to") = none ∧
      parseF32 (chars "salt") = none ∧
      parseQuantity (chars "salt to taste") = (Quantity.none, chars "salt to taste") := by
  refine ⟨?_, ?_, ?_, ?_, ?_⟩ <;> with_unfolding_all decide

/-! ## Nonnegativity of volumes (C7) -/

theorem digitChar_mem_digits (k : Nat) : digitChar k ∈ chars "0123456789*" := by
  match k with
  | 0 => decide
  | 1 => decide
  | 2 => decide
  | 3 => decide
  | 4 => decide
  | 5 => decide
  | 6 => decide
  | 7 => decide
  | 8 => decide
  | 9 => decide
  | n + 10 => show '*' ∈ chars "0123456789*"; decide

theorem digitChar_ne_slash (k : Nat) : digitChar k ≠ '/' := by
  intro h
  have := digitChar_mem_digits k
  rw [h] at this
  exact absurd this (by decide)

theorem natDigits_no_slash :
    ∀ (fuel n : Nat) (acc : Str), '/' ∉ acc → '/' ∉ natDigits fuel n acc := by
  intro fuel
  induction fuel with
  | zero => intro n acc h; simpa [natDigits] using h
  | succ m ih =>
    intro n acc h
    rw [natDigits]
    split
    · intro hm
      rcases List.mem_cons.mp hm with h1 | h2
      · exact digitChar_ne_slash n h1.symm
      · exact h h2
    · refine ih (n / 10) _ fun hm => ?_
      rcases List.mem_cons.mp hm with h1 | h2
      · exact digitChar_ne_slash (n % 10) h1.symm
      · exact h h2

theorem fracDigits_no_slash : ∀ (fuel : Nat) (q : ℚ), '/' ∉ fracDigits fuel q := by
  intro fuel
  induction fuel with
  | zero => intro q; simp [fracDigits]
  | succ m ih =>
    intro q
    rw [fracDigits]
    split
    · simp
    · intro hm
      rcases List.mem_cons.mp hm with h1 | h2
      · exact digitChar_ne_slash _ h1.symm
      · exact ih _ h2

theorem fmtQ_no_slash (q : ℚ) : '/' ∉ fmtQ q := by
  have habs : ∀ p : ℚ, '/' ∉ fmtQAbs p := by
    intro p hm
    rw [fmtQAbs] at hm
    rcases List.mem_append.mp hm with h1 | h2
    · exact natDigits_no_slash _ _ [] (by simp) h1
    · split at h2
      · simp at h2
      · rcases List.mem_cons.mp h2 with h3 | h4
        · cases h3
        · exact fracDigits_no_slash _ _ h4
  rw [fmtQ]
  split
  · intro hm
    rcases List.mem_cons.mp hm with h1 | h2
    · cases h1
    · exact habs _ h2
  · exact habs q

theorem jn_no_slash (s : Str) : '/' ∉ jn s := by
  rw [jn]
  split
  · simp
  · decide

/-! ## The half-tablespoon window (C4) -/

/-- C4 (amended): the `"1/2"` tablespoon token — the only source of a `/`
in the tablespoon group — is emitted iff the remainder after removing
whole tablespoons lies in `[6, 8)`; a remainder of exactly 9 falls through
to the teaspoon phase, which renders `9` as `"2 + 1/4 tsps"` (plural
label, since two whole teaspoons were emitted). -/
theorem half_tbsp_window :
    (∀ (out0 : Str) (q : ℚ),
        '/' ∈ (tbspGroup out0 q).1 ↔
          '/' ∈ out0 ∨ (6 ≤ remE q quarter_teaspoons.TABLESPOON ∧
            remE q quarter_teaspoons.TABLESPOON < 8)) ∧
      Volume.render ⟨9⟩ = chars "2 + 1/4 tsps" := by
  constructor
  · intro out0 q
    have h6 : quarter_teaspoons.HALF_TABLESPOON = 6 := by
      norm_num [quarter_teaspoons.HALF_TABLESPOON, quarter_teaspoons.TABLESPOON]
    have h8 : 2 * quarter_teaspoons.TEASPOON = 8 := by
      norm_num [quarter_teaspoons.TEASPOON]
    rw [tbspGroup]
    simp only [h6, h8]
    by_cases h1 : 0 < divE q quarter_teaspoons.TABLESPOON <;>
      by_cases h2 : (6 : ℚ) ≤ remE q quarter_teaspoons.TABLESPOON ∧
        remE q quarter_teaspoons.TABLESPOON < 8 <;>
      by_cases h3 : 1 < divE q quarter_teaspoons.TABLESPOON <;>
      simp [h1, h2, h3, List.mem_append, fmtQ_no_slash, jn_no_slash,
        show '/' ∈ chars "1/2 " by decide, show '/' ∉ chars " " by decide,
        show '/' ∉ chars "tbsps" by decide, show '/' ∉ chars "tbsp" by decide]
  · with_unfolding_all decide

/-- C4 counterexample: the claim's concrete rendering `"2 + 1/4 tsp"` is
wrong — the code pluralizes the label. -/
theorem half_tbsp_window_cex :
    remE 9 quarter_teaspoons.TABLESPOON = 9 ∧
      Volume.render ⟨9⟩ ≠ chars "2 + 1/4 tsp" := by
  constructor <;> with_unfolding_all decide

/-- C4 witness: at 9 quarter-teaspoons the window does not contain the
remainder and no `/` is produced by the tablespoon group. -/
theorem half_tbsp_window_witness :
    ('/' ∈ (tbspGroup [] 9).1 ↔
        '/' ∈ ([] : Str) ∨ (6 ≤ remE 9 quarter_teaspoons.TABLESPOON ∧
          remE 9 quarter_teaspoons.TABLESPOON < 8)) ∧
      ('/' ∈ (tbspGroup [] 6).1 ↔
        '/' ∈ ([] : Str) ∨ (6 ≤ remE 6 quarter_teaspoons.TABLESPOON ∧
          remE 6 quarter_teaspoons.TABLESPOON < 8)) :=
  ⟨half_tbsp_window.1 [] 9, half_tbsp_window.1 [] 6⟩

/-! ## The cup fraction scan fires at most once (C3, C6) -/

theorem fracScan_cup_low (o : Str) (pl : Bool) (r : ℚ)
    (h : r < quarter_teaspoons.QUARTER_CUP) :
    fracScan cupFracs o pl r = (o, pl, r) := by
  have e1 : quarter_teaspoons.THREE_QUARTER_CUP = 144 := by
    norm_num [quarter_teaspoons.THREE_QUARTER_CUP, quarter_teaspoons.CUP]
  have e2 : quarter_teaspoons.TWO_THIRDS_CUP = 128 := by
    norm_num [quarter_teaspoons.TWO_THIRDS_CUP, quarter_teaspoons.CUP]
  have e3 : quarter_teaspoons.HALF_CUP = 96 := by
    norm_num [quarter_teaspoons.HALF_CUP, quarter_teaspoons.CUP]
  have e4 : quarter_teaspoons.THIRD_CUP = 64 := by
    norm_num [quarter_teaspoons.THIRD_CUP, quarter_teaspoons.CUP]
  have e5 : quarter_teaspoons.QUARTER_CUP = 48 := by
    norm_num [quarter_teaspoons.QUARTER_CUP, quarter_teaspoons.CUP]
  rw [e5] at h
  simp only [cupFracs, e1, e2, e3, e4, e5, fracScan]
  rw [if_neg (not_le.mpr (by linarith)), if_neg (not_le.mpr (by linarith)),
    if_neg (not_le.mpr (by linarith)), if_neg (not_le.mpr (by linarith)),
    if_neg (not_le.mpr (by linarith))]

theorem fracScan_cup_high (o : Str) (pl : Bool) (r : ℚ)
    (h1 : quarter_teaspoons.QUARTER_CUP ≤ r) (h2 : r < quarter_teaspoons.CUP) :
    ∃ tok r', tok.count '/' = 1 ∧
      fracScan cupFracs o pl r =
        (o ++ jn o ++ tok ++ chars " ", (if o.isEmpty then pl else true), r') := by
  have e1 : quarter_teaspoons.THREE_QUARTER_CUP = 144 := by
    norm_num [quarter_teaspoons.THREE_QUARTER_CUP, quarter_teaspoons.CUP]
  have e2 : quarter_teaspoons.TWO_THIRDS_CUP = 128 := by
    norm_num [quarter_teaspoons.TWO_THIRDS_CUP, quarter_teaspoons.CUP]
  have e3 : quarter_teaspoons.HALF_CUP = 96 := by
    norm_num [quarter_teaspoons.HALF_CUP, quarter_teaspoons.CUP]
  have e4 : quarter_teaspoons.THIRD_CUP = 64 := by
    norm_num [quarter_teaspoons.THIRD_CUP, quarter_teaspoons.CUP]
  have e5 : quarter_teaspoons.QUARTER_CUP = 48 := by
    norm_num [quarter_teaspoons.QUARTER_CUP, quarter_teaspoons.CUP]
  have eC : quarter_teaspoons.CUP = 192 := by norm_num [quarter_teaspoons.CUP]
  rw [e5] at h1
  rw [eC] at h2
  simp only [cupFracs, e1, e2, e3, e4, e5, fracScan]
  rcases lt_or_le r 64 with hr | hr
  · refine ⟨chars "1/4", r - 48, by decide, ?_⟩
    rw [if_neg (not_le.mpr (by linarith)), if_neg (not_le.mpr (by linarith)),
      if_neg (not_le.mpr (by linarith)), if_neg (not_le.mpr (by linarith)),
      if_pos (by linarith)]
  · rcases lt_or_le r 96 with hr2 | hr2
    · refine ⟨chars "1/3", r - 64, by decide, ?_⟩
      rw [if_neg (not_le.mpr (by linarith)), if_neg (not_le.mpr (by linarith)),
        if_neg (not_le.mpr (by linarith)), if_pos (by linarith),
        if_neg (not_le.mpr (by linarith))]
    · rcases lt_or_le r 128 with hr3 | hr3
      · refine ⟨chars "1/2", r - 96, by decide, ?_⟩
        rw [if_neg (not_le.mpr (by linarith)), if_neg (not_le.mpr (by linarith)),
          if_pos (by linarith), if_neg (not_le.mpr (by linarith)),
          if_neg (not_le.mpr (by linarith))]
      · rcases lt_or_le r 144 with hr4 | hr4
        · refine ⟨chars "2/3", r - 128, by decide, ?_⟩
          rw [if_neg (not_le.mpr (by linarith)), if_pos (by linarith),
            if_neg (not_le.mpr (by linarith)), if_neg (not_le.mpr (by linarith)),
            if_neg (not_le.mpr (by linarith))]
        · refine ⟨chars "3/4", r - 144, by decide, ?_⟩
          rw [if_pos (by linarith), if_neg (not_le.mpr (by linarith)),
            if_neg (not_le.mpr (by linarith)), if_neg (not_le.mpr (by linarith)),
            if_neg (not_le.mpr (by linarith))]

theorem append_space_not_empty (l : Str) : (l ++ chars " ").isEmpty = false := by
  cases l <;> rfl

theorem count_slash_zero (s : Str) (h : '/' ∉ s) : s.count '/' = 0 :=
  List.count_eq_zero.mpr h

/-- C3: after removing whole cups the remainder is below one cup, and one
render pass emits at most one cup-fraction token: the text of the cup
group (whole-cup figure, fraction tokens and unit label) contains at most
one `/`, and each fraction token contains exactly one. -/
theorem cup_fraction_at_most_one (q : ℚ) (hq : 0 ≤ q) :
    remE q quarter_teaspoons.CUP < quarter_teaspoons.CUP ∧
      ((cupGroup q).1).count '/' ≤ 1 := by
  have hCpos : (0 : ℚ) < quarter_teaspoons.CUP := by norm_num [quarter_teaspoons.CUP]
  have hlt := remE_lt q _ hCpos
  refine ⟨hlt, ?_⟩
  have hlabel : (cupLabel q).count '/' = 0 := by
    rw [cupLabel]
    split
    · decide
    · split
      · rfl
      · decide
  have ho0 :
      ((if 0 < divE q quarter_teaspoons.CUP then
          fmtQ (divE q quarter_teaspoons.CUP) ++ chars " " else []) : Str).count '/' = 0 := by
    split
    · rw [List.count_append, count_slash_zero _ (fmtQ_no_slash _)]
      decide
    · rfl
  show ((cupScan q).1 ++ cupLabel q).count '/' ≤ 1
  rw [List.count_append, hlabel]
  rcases lt_or_le (remE q quarter_teaspoons.CUP) quarter_teaspoons.QUARTER_CUP with hlow | hhigh
  · rw [cupScan, fracScan_cup_low _ _ _ hlow]
    simp [ho0]
  · obtain ⟨tok, r', htok, hscan⟩ := fracScan_cup_high
      (if 0 < divE q quarter_teaspoons.CUP then
        fmtQ (divE q quarter_teaspoons.CUP) ++ chars " " else [])
      false (remE q quarter_teaspoons.CUP) hhigh hlt
    rw [cupScan, hscan]
    simp only [List.count_append, ho0, htok,
      count_slash_zero _ (jn_no_slash _), count_slash_zero (chars " ") (by decide)]
    norm_num

/-- C3 witness: at 164 quarter-teaspoons (the spec's own example) the
remainder is in range and only the single `3/4` token appears. -/
theorem cup_fraction_at_most_one_witness :
    remE 164 quarter_teaspoons.CUP < quarter_teaspoons.CUP ∧
      ((cupGroup 164).1).count '/' ≤ 1 :=
  cup_fraction_at_most_one 164 (by decide)

/-- C2: the seven volume render boundary cases of the spec. -/
theorem volume_render_boundaries :
    Volume.render ⟨0⟩ = chars "" ∧
      Volume.render ⟨192⟩ = chars "1 cup" ∧
      Volume.render ⟨384⟩ = chars "2 cups" ∧
      Volume.render ⟨336⟩ = chars "1 + 3/4 cups" ∧
      Volume.render ⟨6⟩ = chars "1/2 tbsp" ∧
      Volume.render ⟨1⟩ = chars "1/4 tsp" ∧
      Volume.render ⟨0.25⟩ = chars "1/16 tsp" := by
  refine ⟨?_, ?_, ?_, ?_, ?_, ?_, ?_⟩ <;> with_unfolding_all decide

/-! ## The cup unit label (C6) -/

/-- C6 (amended): the cup label is `"cups"` iff more than one whole cup was
emitted, or a fraction token fired alongside at least one whole cup; it is
`"cup"` iff exactly one whole cup fired with no fraction, or no whole cup
fired but a fraction did (the code's plural flag is only set when the
fraction is appended to a nonempty output — the counterexample 144
renders `"3/4 cup"`, singular); it is omitted iff neither fired. -/
theorem cup_label_rule (q : ℚ) (hq : 0 ≤ q) :
    (cupLabel q = chars "cups" ↔
        1 < divE q CUP ∨ (QUARTER_CUP ≤ remE q CUP ∧ 0 < divE q CUP)) ∧
      (cupLabel q = chars "cup" ↔
        (divE q CUP = 1 ∧ remE q CUP < QUARTER_CUP) ∨
          (divE q CUP = 0 ∧ QUARTER_CUP ≤ remE q CUP)) ∧
      (cupLabel q = chars "" ↔ divE q CUP = 0 ∧ remE q CUP < QUARTER_CUP) := by
  have hCpos : (0 : ℚ) < CUP := by norm_num [CUP]
  have hlt := remE_lt q _ hCpos
  have htri : divE q CUP = 0 ∨ divE q CUP = 1 ∨ 1 < divE q CUP := by
    have h3 : (0 : ℤ) ≤ ⌊q / CUP⌋ := Int.floor_nonneg.mpr (div_nonneg hq hCpos.le)
    have h4 : ⌊q / CUP⌋ = 0 ∨ ⌊q / CUP⌋ = 1 ∨ 1 < ⌊q / CUP⌋ := by omega
    rcases h4 with h | h | h
    · left; rw [divE, h]; norm_num
    · right; left; rw [divE, h]; norm_num
    · right; right; rw [divE]; exact_mod_cast h
  rcases lt_or_le (remE q CUP) QUARTER_CUP with hlow | hhigh
  · have hscan : cupScan q =
        ((if 0 < divE q CUP then fmtQ (divE q CUP) ++ chars " " else []), false, remE q CUP) :=
      by rw [cupScan, fracScan_cup_low _ _ _ hlow]
    rcases htri with h0 | h1 | hgt
    · have hlab : cupLabel q = chars "" := by
        rw [cupLabel, hscan]
        simp [h0, show ¬(1 : ℚ) < 0 by norm_num, show chars "" = ([] : Str) from by decide]
      rw [hlab]
      refine ⟨?_, ?_, ?_⟩
      · refine iff_of_false (by decide) ?_
        rintro (hc | ⟨-, hc⟩)
        · rw [h0] at hc; norm_num at hc
        · rw [h0] at hc; norm_num at hc
      · refine iff_of_false (by decide) ?_
        rintro (⟨hc, -⟩ | ⟨-, hc⟩)
        · rw [h0] at hc; norm_num at hc
        · linarith
      · exact iff_of_true rfl ⟨h0, hlow⟩
    · have hlab : cupLabel q = chars "cup" := by
        rw [cupLabel, hscan]
        simp [h1, show ¬(1 : ℚ) < 1 by norm_num, show (0 : ℚ) < 1 by norm_num,
          append_space_not_empty]
      rw [hlab]
      refine ⟨?_, ?_, ?_⟩
      · refine iff_of_false (by decide) ?_
        rintro (hc | ⟨hc, -⟩)
        · rw [h1] at hc; norm_num at hc
        · linarith
      · exact iff_of_true rfl (Or.inl ⟨h1, hlow⟩)
      · refine iff_of_false (by decide) ?_
        rintro ⟨hc, -⟩
        rw [h1] at hc; norm_num at hc
    · have hlab : cupLabel q = chars "cups" := by
        rw [cupLabel, hscan]
        rw [if_pos (Or.inl hgt)]
      rw [hlab]
      refine ⟨?_, ?_, ?_⟩
      · exact iff_of_true rfl (Or.inl hgt)
      · refine iff_of_false (by decide) ?_
        rintro (⟨hc, -⟩ | ⟨hc, -⟩) <;> rw [hc] at hgt <;> norm_num at hgt
      · refine iff_of_false (by decide) ?_
        rintro ⟨hc, -⟩
        rw [hc] at hgt; norm_num at hgt
  · obtain ⟨tok, r', htok, hscan⟩ := fracScan_cup_high
      (if 0 < divE q CUP then fmtQ (divE q CUP) ++ chars " " else [])
      false (remE q CUP) hhigh hlt
    have hscan' : cupScan q =
        ((if 0 < divE q CUP then fmtQ (divE q CUP) ++ chars " " else []) ++
            jn (if 0 < divE q CUP then fmtQ (divE q CUP) ++ chars " " else []) ++
            tok ++ chars " ",
          (if (if 0 < divE q CUP then fmtQ (divE q CUP) ++ chars " " else []).isEmpty then
            false else true), r') := by
      rw [cupScan]; exact hscan
    rcases htri with h0 | h1 | hgt
    · have hlab : cupLabel q = chars "cup" := by
        rw [cupLabel, hscan']
        simp [h0, show ¬(1 : ℚ) < 0 by norm_num, append_space_not_empty]
        intro _ _ h
        exact absurd h (by decide)
      rw [hlab]
      refine ⟨?_, ?_, ?_⟩
      · refine iff_of_false (by decide) ?_
        rintro (hc | ⟨-, hc⟩)
        · rw [h0] at hc; norm_num at hc
        · rw [h0] at hc; norm_num at hc
      · exact iff_of_true rfl (Or.inr ⟨h0, hhigh⟩)
      · refine iff_of_false (by decide) ?_
        rintro ⟨-, hc⟩
        linarith
    · have hlab : cupLabel q = chars "cups" := by
        rw [cupLabel, hscan']
        simp [h1, show (0 : ℚ) < 1 by norm_num, append_space_not_empty]
      rw [hlab]
      refine ⟨?_, ?_, ?_⟩
      · exact iff_of_true rfl (Or.inr ⟨hhigh, by rw [h1]; norm_num⟩)
      · refine iff_of_false (by decide) ?_
        rintro (⟨-, hc⟩ | ⟨hc, -⟩)
        · linarith
        · rw [h1] at hc; norm_num at hc
      · refine iff_of_false (by decide) ?_
        rintro ⟨hc, -⟩
        rw [h1] at hc; norm_num at hc
    · have hlab : cupLabel q = chars "cups" := by
        rw [cupLabel, hscan']
        rw [if_pos (Or.inl hgt)]
      rw [hlab]
      refine ⟨?_, ?_, ?_⟩
      · exact iff_of_true rfl (Or.inl hgt)
      · refine iff_of_false (by decide) ?_
        rintro (⟨hc, -⟩ | ⟨hc, -⟩) <;> rw [hc] at hgt <;> norm_num at hgt
      · refine iff_of_false (by decide) ?_
        rintro ⟨hc, -⟩
        rw [hc] at hgt; norm_num at hgt

/-- C6 witness: at 240 quarter-teaspoons (one cup and a quarter cup) the
label is plural `"cups"`; the theorem applied at the concrete input. -/
theorem cup_label_rule_witness :
    cupLabel 240 = chars "cups" ↔
      1 < divE 240 CUP ∨ (QUARTER_CUP ≤ remE 240 CUP ∧ 0 < divE 240 CUP) :=
  (cup_label_rule 240 (by decide)).1

/-- C6 counterexample: at 144 quarter-teaspoons a fraction token is
emitted (the remainder 144 reaches the quarter-cup threshold) with zero
whole cups, and the rendered label is the singular `"cup"` — refuting the
claim that any emitted fraction forces `"cups"`. -/
theorem cup_label_rule_cex :
    Volume.render ⟨144⟩ = chars "3/4 cup" ∧
      cupLabel 144 = chars "cup" ∧
      QUARTER_CUP ≤ remE 144 CUP ∧ divE 144 CUP = 0 := by
  refine ⟨?_, ?_, ?_, ?_⟩ <;> with_unfolding_all decide
